import Mathlib

/-!
Shallow embedding of the `unique` deduplication routine of pelutils.

The repository's core is a single C function `unique` appearing in two
variants: `src/pelutils/ds/ds.c` (plain C, with an `index == NULL` early
return) and `src/pelutils/_c/ds.c` (the Python binding, same loop without
the early return).  Both scan `n` records of `stride` bytes each, held in
one contiguous buffer, deduplicating them with a content-addressed hashmap
whose entries point back into the buffer.

Modelling choices, all taken from the C source:
* the input buffer is a total function `data : Nat → Nat` from byte
  offsets to byte values (the C precondition is that the buffer holds at
  least `n * stride` valid bytes, so in-range reads are total);
* a record is the list of `stride` bytes starting at its byte offset;
* the hashmap stores, per distinct byte content, the byte offset
  (`p_elem - array`) of the first element inserted with that content.
  `hashmap_get` is content-addressed lookup: the stored hash only routes
  to a bucket and equality is decided by `compare`, i.e. `memcmp` over
  `stride` bytes, so lookup is modelled as searching the stored offsets
  for one whose record bytes equal the key.  The loop only inserts keys
  that are absent, so entries have pairwise distinct contents and the
  search order is irrelevant;
* the three output buffers are total functions `Nat → Int` (C `long`
  values), updated pointwise; their initial contents are the arbitrary
  caller-provided values, which lets frame conditions be stated;
* the `NULL`-ness of `index`/`inverse`/`counts` is a `Bool` flag each;
* recovering a position from a stored offset is `off / stride`, exactly
  the C expression `((char*)p_found_elem->p_elem - (char*)array) / stride`.
  When `stride = 0` this division is C undefined behaviour, so the step
  (and hence the whole call) is modelled as `Option`, returning `none`
  precisely when that division by zero is reached.
-/

/-- Byte span of length `stride` starting at byte offset `off` of the input
buffer: the span `memcmp` reads through `struct elem`'s `p_elem`. -/
def recordAt (data : Nat → Nat) (stride off : Nat) : List Nat :=
  (List.range stride).map (fun j => data (off + j))

/-- The record at logical position `i`: the `stride` bytes starting at byte
offset `stride * i` (C: `(char*)array + stride * i`). -/
def record (data : Nat → Nat) (stride i : Nat) : List Nat :=
  recordAt data stride (stride * i)

/-- Model of `hashmap_get` on the hashmap built by `unique`.  The map is the
list of byte offsets stored so far (each `struct elem`'s `p_elem`, as an
offset from `array`); lookup returns the stored offset whose record bytes
`memcmp`-equal the key (the `compare` callback), or `none`. -/
def hashmap_get (data : Nat → Nat) (stride : Nat) (m : List Nat)
    (key : List Nat) : Option Nat :=
  m.find? (fun off => recordAt data stride off == key)

/-- The state mutated by the scan loop of `unique`: the hashmap contents,
the `n_unique` counter, and the three output buffers. -/
@[ext]
structure UState where
  map : List Nat
  n_unique : Nat
  index : Nat → Int
  inverse : Nat → Int
  counts : Nat → Int

/-- One iteration of the scan loop of `unique` (`src/pelutils/ds/ds.c`,
lines 40–64) at position `i`.  `useInverse` and `useCounts` model
`inverse != NULL` and `counts != NULL`.  Returns `none` exactly when the C
code would compute `found_index` by dividing by `stride = 0`. -/
def uniqueStep (useInverse useCounts : Bool) (data : Nat → Nat)
    (stride : Nat) (s : UState) (i : Nat) : Option UState :=
  match hashmap_get data stride s.map (record data stride i) with
  | some off =>
      if stride = 0 then none
      else
        let found_index := off / stride
        some { s with
          inverse := if useInverse then
              Function.update s.inverse i (s.inverse found_index)
            else s.inverse,
          counts := if useCounts then
              Function.update s.counts found_index (s.counts found_index + 1)
            else s.counts }
  | none =>
      some { s with
        map := s.map ++ [stride * i],
        index := Function.update s.index s.n_unique (Int.ofNat i),
        inverse := if useInverse then
            Function.update s.inverse i (Int.ofNat s.n_unique)
          else s.inverse,
        counts := if useCounts then
            Function.update s.counts i 1
          else s.counts,
        n_unique := s.n_unique + 1 }

/-- The scan loop of `unique` after processing positions `0, …, i-1`
starting from state `s`. -/
def uniqueScan (useInverse useCounts : Bool) (data : Nat → Nat)
    (stride : Nat) (s : UState) : Nat → Option UState
  | 0 => some s
  | i + 1 =>
      (uniqueScan useInverse useCounts data stride s i).bind
        (fun s1 => uniqueStep useInverse useCounts data stride s1 i)

/-- Initial state: empty hashmap, `n_unique = 0`, and the caller-provided
buffer contents `i0`, `v0`, `c0`. -/
def initState (i0 v0 c0 : Nat → Int) : UState :=
  { map := [], n_unique := 0, index := i0, inverse := v0, counts := c0 }

/-- `unique` from `src/pelutils/ds/ds.c` (lines 28–68).  If `index` is
`NULL` (`useIndex = false`) it returns `0` at once, touching nothing; else
it runs the scan.  The result is the returned `n_unique` paired with the
final contents of the three buffers, or `none` when undefined behaviour
(division by zero at `stride = 0`) is reached. -/
def unique (n stride : Nat) (data : Nat → Nat)
    (useIndex useInverse useCounts : Bool) (i0 v0 c0 : Nat → Int) :
    Option (Nat × (Nat → Int) × (Nat → Int) × (Nat → Int)) :=
  if useIndex = false then some (0, i0, v0, c0)
  else
    match uniqueScan useInverse useCounts data stride (initState i0 v0 c0) n with
    | some s => some (s.n_unique, s.index, s.inverse, s.counts)
    | none => none

/-- One iteration of the scan loop of the Python-binding variant of
`unique` (`src/pelutils/_c/ds.c`, lines 42–66); the loop body is written
there verbatim as in the plain-C variant. -/
def uniqueStep_c (useInverse useCounts : Bool) (data : Nat → Nat)
    (stride : Nat) (s : UState) (i : Nat) : Option UState :=
  match hashmap_get data stride s.map (record data stride i) with
  | some off =>
      if stride = 0 then none
      else
        let found_index := off / stride
        some { s with
          inverse := if useInverse then
              Function.update s.inverse i (s.inverse found_index)
            else s.inverse,
          counts := if useCounts then
              Function.update s.counts found_index (s.counts found_index + 1)
            else s.counts }
  | none =>
      some { s with
        map := s.map ++ [stride * i],
        index := Function.update s.index s.n_unique (Int.ofNat i),
        inverse := if useInverse then
            Function.update s.inverse i (Int.ofNat s.n_unique)
          else s.inverse,
        counts := if useCounts then
            Function.update s.counts i 1
          else s.counts,
        n_unique := s.n_unique + 1 }

/-- The scan loop of the Python-binding variant after positions
`0, …, i-1`. -/
def uniqueScan_c (useInverse useCounts : Bool) (data : Nat → Nat)
    (stride : Nat) (s : UState) : Nat → Option UState
  | 0 => some s
  | i + 1 =>
      (uniqueScan_c useInverse useCounts data stride s i).bind
        (fun s1 => uniqueStep_c useInverse useCounts data stride s1 i)

/-- `unique` from `src/pelutils/_c/ds.c` (lines 28–70): the binding
variant has no `index == NULL` early return (the index buffer always comes
from a parsed array), otherwise the same scan. -/
def unique_c (n stride : Nat) (data : Nat → Nat)
    (useInverse useCounts : Bool) (i0 v0 c0 : Nat → Int) :
    Option (Nat × (Nat → Int) × (Nat → Int) × (Nat → Int)) :=
  match uniqueScan_c useInverse useCounts data stride (initState i0 v0 c0) n with
  | some s => some (s.n_unique, s.index, s.inverse, s.counts)
  | none => none

/-- The position of the first record whose bytes equal those of record `i`
(exists: `i` itself qualifies). -/
def firstOcc (data : Nat → Nat) (stride i : Nat) : Nat :=
  Nat.find (⟨i, rfl⟩ : ∃ j, record data stride j = record data stride i)

/-- Whether position `i` is the first occurrence of its byte content. -/
def isFirstB (data : Nat → Nat) (stride i : Nat) : Bool :=
  firstOcc data stride i == i

/-- The first-occurrence positions among `0, …, n-1`, in increasing
order: the positions the scan writes into `index`. -/
def firsts (data : Nat → Nat) (stride n : Nat) : List Nat :=
  (List.range n).filter (isFirstB data stride)

/-- The discovery rank of the group of position `i`: the number of groups
discovered strictly before `i`'s group. -/
def rankOf (data : Nat → Nat) (stride i : Nat) : Nat :=
  (firsts data stride (firstOcc data stride i)).length

/-- Number of positions `m < n` whose record equals the record at `j`. -/
def countUpTo (data : Nat → Nat) (stride n j : Nat) : Nat :=
  ((List.range n).filter
    (fun m => record data stride m == record data stride j)).length

/-- All `n` records are pairwise byte-distinct. -/
def pairwiseDistinct (data : Nat → Nat) (stride n : Nat) : Prop :=
  ∀ i j, i < j → j < n → record data stride i ≠ record data stride j

/-- Closed form of the scan state after processing positions
`0, …, i-1` (for `stride > 0`, or unconditionally for `i ≤ 1`). -/
def stateSpec (useInverse useCounts : Bool) (data : Nat → Nat)
    (stride : Nat) (i0 v0 c0 : Nat → Int) (i : Nat) : UState :=
  { map := (firsts data stride i).map (fun j => stride * j),
    n_unique := (firsts data stride i).length,
    index := fun k =>
      if h : k < (firsts data stride i).length then
        Int.ofNat ((firsts data stride i).get ⟨k, h⟩)
      else i0 k,
    inverse := fun j =>
      if useInverse = true ∧ j < i then Int.ofNat (rankOf data stride j)
      else v0 j,
    counts := fun j =>
      if useCounts = true ∧ j < i ∧ isFirstB data stride j = true then
        Int.ofNat (countUpTo data stride i j)
      else c0 j }

/-! Basic facts about first occurrences. -/

theorem record_firstOcc (data : Nat → Nat) (stride i : Nat) :
    record data stride (firstOcc data stride i) = record data stride i :=
  Nat.find_spec (⟨i, rfl⟩ : ∃ j, record data stride j = record data stride i)

theorem firstOcc_le (data : Nat → Nat) (stride i : Nat) :
    firstOcc data stride i ≤ i :=
  Nat.find_le rfl

theorem firstOcc_min (data : Nat → Nat) (stride : Nat) {i m : Nat}
    (h : m < firstOcc data stride i) :
    record data stride m ≠ record data stride i :=
  Nat.find_min (⟨i, rfl⟩ : ∃ j, record data stride j = record data stride i) h

theorem isFirstB_iff (data : Nat → Nat) (stride i : Nat) :
    isFirstB data stride i = true ↔
      ∀ j < i, record data stride j ≠ record data stride i := by
  unfold isFirstB
  rw [beq_iff_eq]
  constructor
  · intro h j hj
    have hj2 : j < firstOcc data stride i := by rw [h]; exact hj
    exact firstOcc_min data stride hj2
  · intro h
    rcases Nat.lt_or_ge (firstOcc data stride i) i with hlt | hge
    · exact absurd (record_firstOcc data stride i) (h _ hlt)
    · exact Nat.le_antisymm (firstOcc_le data stride i) hge

theorem isFirstB_zero (data : Nat → Nat) (stride : Nat) :
    isFirstB data stride 0 = true := by
  rw [isFirstB_iff]
  intro j hj
  exact absurd hj (Nat.not_lt_zero j)

theorem firstOcc_isFirst (data : Nat → Nat) (stride i : Nat) :
    isFirstB data stride (firstOcc data stride i) = true := by
  rw [isFirstB_iff]
  intro j hj hrec
  exact firstOcc_min data stride hj (hrec.trans (record_firstOcc data stride i))

theorem firstOcc_lt_of_not_first (data : Nat → Nat) (stride : Nat) {i : Nat}
    (h : isFirstB data stride i = false) : firstOcc data stride i < i := by
  rcases Nat.lt_or_ge (firstOcc data stride i) i with hlt | hge
  · exact hlt
  · have heq : firstOcc data stride i = i :=
      Nat.le_antisymm (firstOcc_le data stride i) hge
    rw [isFirstB, heq] at h
    simp at h

theorem firstOcc_eq_of_first (data : Nat → Nat) (stride : Nat) {i j : Nat}
    (hj : isFirstB data stride j = true)
    (hrec : record data stride j = record data stride i) :
    j = firstOcc data stride i := by
  have hle : firstOcc data stride i ≤ j := Nat.find_le hrec
  rcases Nat.lt_or_ge (firstOcc data stride i) j with hlt | hge
  · exact absurd ((record_firstOcc data stride i).trans hrec.symm)
      ((isFirstB_iff data stride j).1 hj _ hlt)
  · exact Nat.le_antisymm hge hle

theorem firstOcc_firstOcc (data : Nat → Nat) (stride i : Nat) :
    firstOcc data stride (firstOcc data stride i) = firstOcc data stride i :=
  (firstOcc_eq_of_first data stride (firstOcc_isFirst data stride i) rfl).symm

theorem firstOcc_of_first (data : Nat → Nat) (stride : Nat) {i : Nat}
    (h : isFirstB data stride i = true) : firstOcc data stride i = i := by
  rw [isFirstB, beq_iff_eq] at h
  exact h

/-! Facts about the list of first-occurrence positions. -/

theorem mem_firsts (data : Nat → Nat) (stride : Nat) {j n : Nat} :
    j ∈ firsts data stride n ↔ j < n ∧ isFirstB data stride j = true := by
  unfold firsts
  rw [List.mem_filter, List.mem_range]

theorem firsts_succ (data : Nat → Nat) (stride i : Nat) :
    firsts data stride (i + 1) =
      firsts data stride i ++ if isFirstB data stride i then [i] else [] := by
  unfold firsts
  rw [List.range_succ, List.filter_append]
  congr 1
  by_cases h : isFirstB data stride i = true <;> simp [h]

theorem countUpTo_succ (data : Nat → Nat) (stride i j : Nat) :
    countUpTo data stride (i + 1) j =
      countUpTo data stride i j +
        if record data stride i = record data stride j then 1 else 0 := by
  unfold countUpTo
  rw [List.range_succ, List.filter_append, List.length_append]
  congr 1
  by_cases h : record data stride i = record data stride j <;> simp [h]

theorem countUpTo_self_of_first (data : Nat → Nat) (stride : Nat) {i : Nat}
    (h : isFirstB data stride i = true) : countUpTo data stride i i = 0 := by
  unfold countUpTo
  rw [List.length_eq_zero, List.filter_eq_nil_iff]
  intro m hm
  simp only [beq_iff_eq]
  exact (isFirstB_iff data stride i).1 h m (List.mem_range.1 hm)

/-! The hashmap lookup on the map built by the scan. -/

theorem find?_eq_some_of_unique {α : Type} (p : α → Bool) (l : List α)
    (a : α) (ha : a ∈ l) (hpa : p a = true)
    (huniq : ∀ b ∈ l, p b = true → b = a) : l.find? p = some a := by
  induction l with
  | nil => exact absurd ha (List.not_mem_nil a)
  | cons x xs ih =>
      by_cases hx : p x = true
      · rw [List.find?_cons_of_pos _ hx, huniq x (List.mem_cons_self x xs) hx]
      · rw [List.find?_cons_of_neg _ hx]
        rcases List.mem_cons.1 ha with rfl | ha2
        · exact absurd hpa hx
        · exact ih ha2 (fun b hb hpb => huniq b (List.mem_cons_of_mem x hb) hpb)

theorem hashmap_get_none (data : Nat → Nat) (stride : Nat) {i : Nat}
    (h : isFirstB data stride i = true) :
    hashmap_get data stride ((firsts data stride i).map (fun j => stride * j))
      (record data stride i) = none := by
  unfold hashmap_get
  rw [List.find?_eq_none]
  intro x hx
  rcases List.mem_map.1 hx with ⟨j, hj, rfl⟩
  rcases (mem_firsts data stride).1 hj with ⟨hji, _⟩
  simp only [beq_iff_eq]
  exact (isFirstB_iff data stride i).1 h j hji

theorem hashmap_get_found (data : Nat → Nat) (stride : Nat) {i : Nat}
    (h : isFirstB data stride i = false) :
    hashmap_get data stride ((firsts data stride i).map (fun j => stride * j))
      (record data stride i) = some (stride * firstOcc data stride i) := by
  unfold hashmap_get
  refine find?_eq_some_of_unique _ _ _ ?_ ?_ ?_
  · exact List.mem_map.2 ⟨firstOcc data stride i,
      (mem_firsts data stride).2
        ⟨firstOcc_lt_of_not_first data stride h, firstOcc_isFirst data stride i⟩, rfl⟩
  · simp only [beq_iff_eq]
    exact record_firstOcc data stride i
  · intro b hb hpb
    rcases List.mem_map.1 hb with ⟨j, hj, rfl⟩
    rcases (mem_firsts data stride).1 hj with ⟨_, hjf⟩
    simp only [beq_iff_eq] at hpb
    rw [firstOcc_eq_of_first data stride hjf hpb]

theorem rankOf_eq_of_first (data : Nat → Nat) (stride : Nat) {i : Nat}
    (h : isFirstB data stride i = true) :
    rankOf data stride i = (firsts data stride i).length := by
  unfold rankOf
  rw [firstOcc_of_first data stride h]

theorem rankOf_firstOcc (data : Nat → Nat) (stride i : Nat) :
    rankOf data stride (firstOcc data stride i) = rankOf data stride i := by
  unfold rankOf
  rw [firstOcc_firstOcc]

theorem stateSpec_map (useInverse useCounts : Bool) (data : Nat → Nat)
    (stride : Nat) (i0 v0 c0 : Nat → Int) (i : Nat) :
    (stateSpec useInverse useCounts data stride i0 v0 c0 i).map =
      (firsts data stride i).map (fun j => stride * j) := rfl

theorem stateSpec_n_unique (useInverse useCounts : Bool) (data : Nat → Nat)
    (stride : Nat) (i0 v0 c0 : Nat → Int) (i : Nat) :
    (stateSpec useInverse useCounts data stride i0 v0 c0 i).n_unique =
      (firsts data stride i).length := rfl

theorem stateSpec_index (useInverse useCounts : Bool) (data : Nat → Nat)
    (stride : Nat) (i0 v0 c0 : Nat → Int) (i k : Nat) :
    (stateSpec useInverse useCounts data stride i0 v0 c0 i).index k =
      if h : k < (firsts data stride i).length then
        Int.ofNat ((firsts data stride i).get ⟨k, h⟩)
      else i0 k := rfl

theorem stateSpec_inverse (useInverse useCounts : Bool) (data : Nat → Nat)
    (stride : Nat) (i0 v0 c0 : Nat → Int) (i j : Nat) :
    (stateSpec useInverse useCounts data stride i0 v0 c0 i).inverse j =
      if useInverse = true ∧ j < i then Int.ofNat (rankOf data stride j)
      else v0 j := rfl

theorem stateSpec_counts (useInverse useCounts : Bool) (data : Nat → Nat)
    (stride : Nat) (i0 v0 c0 : Nat → Int) (i j : Nat) :
    (stateSpec useInverse useCounts data stride i0 v0 c0 i).counts j =
      if useCounts = true ∧ j < i ∧ isFirstB data stride j = true then
        Int.ofNat (countUpTo data stride i j)
      else c0 j := rfl

theorem uniqueStep_of_get_none (u c : Bool) (data : Nat → Nat)
    (stride : Nat) (s : UState) (i : Nat)
    (h : hashmap_get data stride s.map (record data stride i) = none) :
    uniqueStep u c data stride s i =
      some { s with
        map := s.map ++ [stride * i],
        index := Function.update s.index s.n_unique (Int.ofNat i),
        inverse := if u then
            Function.update s.inverse i (Int.ofNat s.n_unique)
          else s.inverse,
        counts := if c then
            Function.update s.counts i 1
          else s.counts,
        n_unique := s.n_unique + 1 } := by
  unfold uniqueStep
  rw [h]

theorem uniqueStep_of_get_some (u c : Bool) (data : Nat → Nat)
    (stride : Nat) (s : UState) (i off : Nat)
    (h : hashmap_get data stride s.map (record data stride i) = some off)
    (hsz : stride ≠ 0) :
    uniqueStep u c data stride s i =
      some { s with
        inverse := if u then
            Function.update s.inverse i (s.inverse (off / stride))
          else s.inverse,
        counts := if c then
            Function.update s.counts (off / stride) (s.counts (off / stride) + 1)
          else s.counts } := by
  unfold uniqueStep
  rw [h]
  simp only [if_neg hsz]

theorem uniqueStep_of_get_some_zero (u c : Bool) (data : Nat → Nat)
    (s : UState) (i off : Nat)
    (h : hashmap_get data 0 s.map (record data 0 i) = some off) :
    uniqueStep u c data 0 s i = none := by
  unfold uniqueStep
  rw [h]
  rfl

/-- Closed form of the scan: after processing positions `0, …, i-1` the
state is exactly `stateSpec … i` (for `stride > 0` always; for `stride = 0`
as long as at most one position was processed, i.e. before the division by
zero can be reached). -/
theorem uniqueScan_spec (useInverse useCounts : Bool) (data : Nat → Nat)
    (stride : Nat) (i0 v0 c0 : Nat → Int) :
    ∀ i, (0 < stride ∨ i ≤ 1) →
      uniqueScan useInverse useCounts data stride (initState i0 v0 c0) i =
        some (stateSpec useInverse useCounts data stride i0 v0 c0 i) := by
  intro i
  induction i with
  | zero =>
      intro _
      refine congrArg some (UState.ext ?_ ?_ ?_ ?_ ?_)
      · rfl
      · rfl
      · funext k
        rw [stateSpec_index, dif_neg (by simp [firsts])]
        rfl
      · funext j
        rw [stateSpec_inverse, if_neg (by simp)]
        rfl
      · funext j
        rw [stateSpec_counts, if_neg (by simp)]
        rfl
  | succ i ih =>
      intro h
      have hi : 0 < stride ∨ i ≤ 1 := by
        rcases h with h | h
        · exact Or.inl h
        · exact Or.inr (by omega)
      rw [uniqueScan, ih hi]
      show uniqueStep useInverse useCounts data stride
          (stateSpec useInverse useCounts data stride i0 v0 c0 i) i =
        some (stateSpec useInverse useCounts data stride i0 v0 c0 (i + 1))
      by_cases hf : isFirstB data stride i = true
      · -- position i starts a new group: the lookup misses
        have hget : hashmap_get data stride
            (stateSpec useInverse useCounts data stride i0 v0 c0 i).map
            (record data stride i) = none := by
          rw [stateSpec_map]
          exact hashmap_get_none data stride hf
        rw [uniqueStep_of_get_none _ _ _ _ _ _ hget]
        have hlen : firsts data stride (i + 1) = firsts data stride i ++ [i] := by
          rw [firsts_succ data stride i, hf]
          rfl
        have hmap : (firsts data stride i).map (fun j => stride * j) ++ [stride * i]
            = (firsts data stride (i + 1)).map (fun j => stride * j) := by
          rw [hlen, List.map_append]
          rfl
        have hnu : (firsts data stride i).length + 1 =
            (firsts data stride (i + 1)).length := by
          rw [hlen, List.length_append]
          rfl
        have hidx : Function.update
            (stateSpec useInverse useCounts data stride i0 v0 c0 i).index
            (firsts data stride i).length (Int.ofNat i) =
            (stateSpec useInverse useCounts data stride i0 v0 c0 (i + 1)).index := by
          funext k
          rw [Function.update_apply, stateSpec_index, stateSpec_index]
          by_cases hk : k = (firsts data stride i).length
          · subst hk
            rw [if_pos rfl,
              dif_pos (show (firsts data stride i).length <
                (firsts data stride (i + 1)).length by omega)]
            congr 1
            simp only [List.get_eq_getElem]
            rw [List.getElem_of_eq hlen, List.getElem_concat_length]
            rfl
          · rw [if_neg hk]
            by_cases hk2 : k < (firsts data stride i).length
            · rw [dif_pos hk2, dif_pos (show k <
                (firsts data stride (i + 1)).length by omega)]
              congr 1
              simp only [List.get_eq_getElem]
              rw [List.getElem_of_eq hlen, List.getElem_append_left hk2]
            · rw [dif_neg hk2, dif_neg (show ¬ k <
                (firsts data stride (i + 1)).length by omega)]
        have hinv : (if useInverse then Function.update
              (stateSpec useInverse useCounts data stride i0 v0 c0 i).inverse i
              (Int.ofNat (firsts data stride i).length)
            else (stateSpec useInverse useCounts data stride i0 v0 c0 i).inverse) =
            (stateSpec useInverse useCounts data stride i0 v0 c0 (i + 1)).inverse := by
          cases useInverse with
          | false =>
              rw [if_neg (by simp)]
              funext j
              rw [stateSpec_inverse, stateSpec_inverse, if_neg (by simp),
                if_neg (by simp)]
          | true =>
              rw [if_pos rfl]
              funext j
              rw [Function.update_apply, stateSpec_inverse, stateSpec_inverse]
              by_cases hj : j = i
              · subst hj
                rw [if_pos rfl, if_pos ⟨rfl, Nat.lt_succ_self j⟩,
                  rankOf_eq_of_first data stride hf]
              · rw [if_neg hj]
                by_cases hj2 : j < i
                · rw [if_pos ⟨rfl, hj2⟩, if_pos ⟨rfl, by omega⟩]
                · rw [if_neg (by simp [hj2]),
                    if_neg (by simp only [true_and]; omega)]
        have hcnt : (if useCounts then Function.update
              (stateSpec useInverse useCounts data stride i0 v0 c0 i).counts i 1
            else (stateSpec useInverse useCounts data stride i0 v0 c0 i).counts) =
            (stateSpec useInverse useCounts data stride i0 v0 c0 (i + 1)).counts := by
          cases useCounts with
          | false =>
              rw [if_neg (by simp)]
              funext j
              rw [stateSpec_counts, stateSpec_counts, if_neg (by simp),
                if_neg (by simp)]
          | true =>
              rw [if_pos rfl]
              funext j
              rw [Function.update_apply, stateSpec_counts, stateSpec_counts]
              by_cases hj : j = i
              · subst hj
                rw [if_pos rfl, if_pos ⟨rfl, Nat.lt_succ_self j, hf⟩,
                  countUpTo_succ, countUpTo_self_of_first data stride hf,
                  if_pos rfl]
                rfl
              · rw [if_neg hj]
                by_cases hj2 : j < i ∧ isFirstB data stride j = true
                · have hrec : record data stride i ≠ record data stride j :=
                    fun hr => (isFirstB_iff data stride i).1 hf j hj2.1 hr.symm
                  rw [if_pos ⟨rfl, hj2.1, hj2.2⟩,
                    if_pos ⟨rfl, by omega, hj2.2⟩, countUpTo_succ, if_neg hrec]
                  rfl
                · rw [if_neg (fun hc => hj2 ⟨hc.2.1, hc.2.2⟩),
                    if_neg (fun hc => by
                      rcases Nat.lt_succ_iff_lt_or_eq.1 hc.2.1 with h3 | h3
                      · exact hj2 ⟨h3, hc.2.2⟩
                      · exact hj h3)]
        exact congrArg some (UState.ext hmap hnu hidx hinv hcnt)
      · -- position i repeats an earlier record: the lookup hits
        have hff : isFirstB data stride i = false := by
          simpa using hf
        have hj0 : firstOcc data stride i < i :=
          firstOcc_lt_of_not_first data stride hff
        have hst : 0 < stride := by
          rcases h with h | h
          · exact h
          · have hzero : i = 0 := by omega
            subst hzero
            rw [isFirstB_zero data stride] at hff
            cases hff
        have hget : hashmap_get data stride
            (stateSpec useInverse useCounts data stride i0 v0 c0 i).map
            (record data stride i) =
              some (stride * firstOcc data stride i) := by
          rw [stateSpec_map]
          exact hashmap_get_found data stride hff
        rw [uniqueStep_of_get_some _ _ _ _ _ _ _ hget (Nat.pos_iff_ne_zero.1 hst),
          Nat.mul_div_cancel_left _ hst]
        have hlen : firsts data stride (i + 1) = firsts data stride i := by
          rw [firsts_succ data stride i, hff]
          simp
        have hmap : (firsts data stride i).map (fun j => stride * j) =
            (firsts data stride (i + 1)).map (fun j => stride * j) := by
          rw [hlen]
        have hnu : (firsts data stride i).length =
            (firsts data stride (i + 1)).length := by
          rw [hlen]
        have hidx : (stateSpec useInverse useCounts data stride i0 v0 c0 i).index =
            (stateSpec useInverse useCounts data stride i0 v0 c0 (i + 1)).index := by
          funext k
          rw [stateSpec_index, stateSpec_index]
          by_cases hk : k < (firsts data stride i).length
          · rw [dif_pos hk, dif_pos (show k <
              (firsts data stride (i + 1)).length by omega)]
            congr 1
            simp only [List.get_eq_getElem]
            rw [List.getElem_of_eq hlen]
          · rw [dif_neg hk, dif_neg (show ¬ k <
              (firsts data stride (i + 1)).length by omega)]
        have hinv : (if useInverse then Function.update
              (stateSpec useInverse useCounts data stride i0 v0 c0 i).inverse i
              ((stateSpec useInverse useCounts data stride i0 v0 c0 i).inverse
                (firstOcc data stride i))
            else (stateSpec useInverse useCounts data stride i0 v0 c0 i).inverse) =
            (stateSpec useInverse useCounts data stride i0 v0 c0 (i + 1)).inverse := by
          cases useInverse with
          | false =>
              rw [if_neg (by simp)]
              funext j
              rw [stateSpec_inverse, stateSpec_inverse, if_neg (by simp),
                if_neg (by simp)]
          | true =>
              rw [if_pos rfl]
              have hv : (stateSpec true useCounts data stride i0 v0 c0 i).inverse
                  (firstOcc data stride i) = Int.ofNat (rankOf data stride i) := by
                rw [stateSpec_inverse, if_pos ⟨rfl, hj0⟩, rankOf_firstOcc]
              rw [hv]
              funext j
              rw [Function.update_apply, stateSpec_inverse, stateSpec_inverse]
              by_cases hj : j = i
              · subst hj
                rw [if_pos rfl, if_pos ⟨rfl, Nat.lt_succ_self j⟩]
              · rw [if_neg hj]
                by_cases hj2 : j < i
                · rw [if_pos ⟨rfl, hj2⟩, if_pos ⟨rfl, by omega⟩]
                · rw [if_neg (by simp [hj2]),
                    if_neg (by simp only [true_and]; omega)]
        have hcnt : (if useCounts then Function.update
              (stateSpec useInverse useCounts data stride i0 v0 c0 i).counts
              (firstOcc data stride i)
              ((stateSpec useInverse useCounts data stride i0 v0 c0 i).counts
                (firstOcc data stride i) + 1)
            else (stateSpec useInverse useCounts data stride i0 v0 c0 i).counts) =
            (stateSpec useInverse useCounts data stride i0 v0 c0 (i + 1)).counts := by
          cases useCounts with
          | false =>
              rw [if_neg (by simp)]
              funext j
              rw [stateSpec_counts, stateSpec_counts, if_neg (by simp),
                if_neg (by simp)]
          | true =>
              rw [if_pos rfl]
              have hv : (stateSpec useInverse true data stride i0 v0 c0 i).counts
                  (firstOcc data stride i) =
                    Int.ofNat (countUpTo data stride i (firstOcc data stride i)) := by
                rw [stateSpec_counts,
                  if_pos ⟨rfl, hj0, firstOcc_isFirst data stride i⟩]
              rw [hv]
              funext j
              rw [Function.update_apply, stateSpec_counts, stateSpec_counts]
              by_cases hj : j = firstOcc data stride i
              · subst hj
                rw [if_pos rfl,
                  if_pos ⟨rfl, by omega, firstOcc_isFirst data stride i⟩,
                  countUpTo_succ, if_pos (record_firstOcc data stride i).symm]
                rfl
              · rw [if_neg hj]
                by_cases hj2 : j < i ∧ isFirstB data stride j = true
                · have hrec : record data stride i ≠ record data stride j := by
                    intro hr
                    exact hj (firstOcc_eq_of_first data stride hj2.2 hr.symm)
                  rw [if_pos ⟨rfl, hj2.1, hj2.2⟩,
                    if_pos ⟨rfl, by omega, hj2.2⟩, countUpTo_succ, if_neg hrec]
                  rfl
                · rw [if_neg (fun hc => hj2 ⟨hc.2.1, hc.2.2⟩),
                    if_neg (fun hc => by
                      rcases Nat.lt_succ_iff_lt_or_eq.1 hc.2.1 with h3 | h3
                      · exact hj2 ⟨h3, hc.2.2⟩
                      · rw [h3] at hc
                        rw [hc.2.2] at hff
                        cases hff)]
        exact congrArg some (UState.ext hmap hnu hidx hinv hcnt)

/-- With `stride = 0` every record is the empty byte span, so from the
second position on the lookup succeeds and the C code divides by zero:
the scan is undefined for `stride = 0` as soon as `i ≥ 2`. -/
theorem uniqueScan_zero_stride (useInverse useCounts : Bool)
    (data : Nat → Nat) (i0 v0 c0 : Nat → Int) :
    ∀ i, 2 ≤ i →
      uniqueScan useInverse useCounts data 0 (initState i0 v0 c0) i = none := by
  intro i hi
  induction i with
  | zero => omega
  | succ i ihn =>
      rw [uniqueScan]
      rcases Nat.lt_or_ge i 2 with h2 | h2
      · have hi1 : i = 1 := by omega
        subst hi1
        rw [uniqueScan_spec useInverse useCounts data 0 i0 v0 c0 1 (Or.inr le_rfl)]
        have h1 : firsts data 0 1 = [0] := by
          unfold firsts
          simp [List.range_succ, List.range_zero, isFirstB_zero data 0]
        have hget : hashmap_get data 0
            (stateSpec useInverse useCounts data 0 i0 v0 c0 1).map
            (record data 0 1) = some 0 := by
          rw [stateSpec_map, h1]
          rfl
        show uniqueStep useInverse useCounts data 0
            (stateSpec useInverse useCounts data 0 i0 v0 c0 1) 1 = none
        exact uniqueStep_of_get_some_zero useInverse useCounts data _ 1 0 hget
      · rw [ihn h2]
        rfl

/-- A completed call (`index` requested, result defined) implies
`stride > 0` or `n ≤ 1`. -/
theorem unique_some_cases (n stride : Nat) (data : Nat → Nat)
    (useInverse useCounts : Bool) (i0 v0 c0 : Nat → Int)
    (r : Nat × (Nat → Int) × (Nat → Int) × (Nat → Int))
    (h : unique n stride data true useInverse useCounts i0 v0 c0 = some r) :
    0 < stride ∨ n ≤ 1 := by
  by_contra hc
  push_neg at hc
  have hs : stride = 0 := by omega
  subst hs
  rw [unique, if_neg (by simp),
    uniqueScan_zero_stride useInverse useCounts data i0 v0 c0 n (by omega)] at h
  cases h

/-- The outcome of a completed `unique` call in closed form. -/
theorem unique_eq_spec (n stride : Nat) (data : Nat → Nat)
    (useInverse useCounts : Bool) (i0 v0 c0 : Nat → Int)
    (h : 0 < stride ∨ n ≤ 1) :
    unique n stride data true useInverse useCounts i0 v0 c0 =
      some ((firsts data stride n).length,
        (stateSpec useInverse useCounts data stride i0 v0 c0 n).index,
        (stateSpec useInverse useCounts data stride i0 v0 c0 n).inverse,
        (stateSpec useInverse useCounts data stride i0 v0 c0 n).counts) := by
  rw [unique, if_neg (by simp),
    uniqueScan_spec useInverse useCounts data stride i0 v0 c0 n h]
  rfl

/-- Destructuring a completed `unique` call: each output is the
corresponding `stateSpec` component. -/
theorem unique_some_elim (n stride : Nat) (data : Nat → Nat)
    (useInverse useCounts : Bool) (i0 v0 c0 : Nat → Int) (nu : Nat)
    (idx inv cnt : Nat → Int)
    (h : unique n stride data true useInverse useCounts i0 v0 c0 =
      some (nu, idx, inv, cnt)) :
    nu = (firsts data stride n).length ∧
    idx = (stateSpec useInverse useCounts data stride i0 v0 c0 n).index ∧
    inv = (stateSpec useInverse useCounts data stride i0 v0 c0 n).inverse ∧
    cnt = (stateSpec useInverse useCounts data stride i0 v0 c0 n).counts := by
  have hc := unique_some_cases n stride data useInverse useCounts i0 v0 c0 _ h
  rw [unique_eq_spec n stride data useInverse useCounts i0 v0 c0 hc] at h
  simp only [Option.some.injEq, Prod.mk.injEq] at h
  exact ⟨h.1.symm, h.2.1.symm, h.2.2.1.symm, h.2.2.2.symm⟩

/-- The list of first occurrences seen before `j` is a strict prefix of the
list seen before `n` whenever `j` itself is a first occurrence and
`j < n`. -/
theorem firsts_length_lt (data : Nat → Nat) (stride : Nat) {j : Nat}
    (hp : isFirstB data stride j = true) :
    ∀ {n : Nat}, j < n →
      (firsts data stride j).length < (firsts data stride n).length := by
  intro n
  induction n with
  | zero => omega
  | succ n ihn =>
      intro hj
      rw [firsts_succ data stride n]
      rcases Nat.lt_succ_iff_lt_or_eq.1 hj with h | h
      · have := ihn h
        rw [List.length_append]
        omega
      · subst h
        rw [hp, List.length_append]
        simp

/-- The slot of `index` holding a first occurrence `j` is the number of
first occurrences strictly before `j`. -/
theorem firsts_get_at (data : Nat → Nat) (stride : Nat) {j : Nat}
    (hp : isFirstB data stride j = true) :
    ∀ {n : Nat}, j < n →
      ∀ hb : (firsts data stride j).length < (firsts data stride n).length,
      (firsts data stride n).get ⟨(firsts data stride j).length, hb⟩ = j := by
  intro n
  induction n with
  | zero => omega
  | succ n ihn =>
      intro hj hb
      simp only [List.get_eq_getElem]
      rw [List.getElem_of_eq (firsts_succ data stride n)]
      rcases Nat.lt_succ_iff_lt_or_eq.1 hj with h | h
      · have hb2 := firsts_length_lt data stride hp h
        rw [List.getElem_append_left hb2]
        have := ihn h hb2
        simp only [List.get_eq_getElem] at this
        exact this
      · subst h
        have hl : (firsts data stride j ++
            if isFirstB data stride j = true then [j] else []) =
            firsts data stride j ++ [j] := by
          rw [hp]
          rfl
        rw [List.getElem_of_eq hl, List.getElem_concat_length]
        rfl

theorem firsts_sorted (data : Nat → Nat) (stride n : Nat) :
    List.Pairwise (fun a b => a < b) (firsts data stride n) :=
  List.Pairwise.sublist (List.filter_sublist _) (List.pairwise_lt_range n)

theorem firsts_nodup (data : Nat → Nat) (stride n : Nat) :
    (firsts data stride n).Nodup :=
  List.Nodup.filter _ (List.nodup_range n)

/-- `rankOf` never exceeds the position itself. -/
theorem rankOf_le (data : Nat → Nat) (stride i : Nat) :
    rankOf data stride i ≤ i := by
  unfold rankOf
  calc (firsts data stride (firstOcc data stride i)).length
      ≤ (List.range (firstOcc data stride i)).length :=
        List.length_filter_le _ _
    _ = firstOcc data stride i := List.length_range _
    _ ≤ i := firstOcc_le data stride i

/-- `rankOf` of any position scanned so far is a valid discovery rank. -/
theorem rankOf_lt (data : Nat → Nat) (stride : Nat) {i n : Nat} (hi : i < n) :
    rankOf data stride i < (firsts data stride n).length := by
  unfold rankOf
  exact firsts_length_lt data stride (firstOcc_isFirst data stride i)
    (Nat.lt_of_le_of_lt (firstOcc_le data stride i) hi)

/-- The slot number of a first occurrence read back from `index` is the
number of earlier first occurrences. -/
theorem firsts_get_length (data : Nat → Nat) (stride : Nat) {n k : Nat}
    (hk : k < (firsts data stride n).length) :
    (firsts data stride ((firsts data stride n).get ⟨k, hk⟩)).length = k := by
  have hmem := List.get_mem (firsts data stride n) k hk
  have hj := (mem_firsts data stride).1 hmem
  have hb := firsts_length_lt data stride hj.2 hj.1
  have hg := firsts_get_at data stride hj.2 hj.1 hb
  have hfin := (List.Nodup.get_inj_iff (firsts_nodup data stride n)).1 hg
  exact congrArg Fin.val hfin

/-- Two first occurrences with the same discovery rank coincide. -/
theorem first_eq_of_firsts_length_eq (data : Nat → Nat) (stride : Nat)
    {a b : Nat} (ha : isFirstB data stride a = true)
    (hb : isFirstB data stride b = true)
    (h : (firsts data stride a).length = (firsts data stride b).length) :
    a = b := by
  rcases Nat.lt_trichotomy a b with hab | hab | hab
  · exact absurd h (Nat.ne_of_lt (firsts_length_lt data stride ha hab))
  · exact hab
  · exact absurd h.symm (Nat.ne_of_lt (firsts_length_lt data stride hb hab))

/-- C1: for every completed call to `unique` with the index buffer
requested, the returned `n_unique` satisfies `0 ≤ n_unique ≤ n`, and
`n_unique = n` holds iff all `n` records are pairwise byte-distinct. -/
theorem C1_n_unique_bounds (n stride : Nat) (data : Nat → Nat)
    (useInverse useCounts : Bool) (i0 v0 c0 : Nat → Int) (nu : Nat)
    (idx inv cnt : Nat → Int)
    (h : unique n stride data true useInverse useCounts i0 v0 c0 =
      some (nu, idx, inv, cnt)) :
    0 ≤ nu ∧ nu ≤ n ∧ (nu = n ↔ pairwiseDistinct data stride n) := by
  obtain ⟨hnu, -, -, -⟩ :=
    unique_some_elim n stride data useInverse useCounts i0 v0 c0 nu idx inv cnt h
  subst hnu
  refine ⟨Nat.zero_le _, ?_, ?_, ?_⟩
  · calc (firsts data stride n).length
        ≤ (List.range n).length := List.length_filter_le _ _
      _ = n := List.length_range n
  · intro hlen i j hij hj hrec
    have hall : firsts data stride n = List.range n :=
      List.Sublist.eq_of_length (List.filter_sublist _)
        (by rw [hlen, List.length_range])
    have hjmem : j ∈ firsts data stride n := by
      rw [hall]
      exact List.mem_range.2 hj
    exact (isFirstB_iff data stride j).1 ((mem_firsts data stride).1 hjmem).2
      i hij hrec
  · intro hpd
    have hall : firsts data stride n = List.range n := by
      unfold firsts
      apply List.filter_eq_self.2
      intro a ha
      rw [isFirstB_iff]
      intro j hj hrec
      exact hpd j a hj (List.mem_range.1 ha) hrec
    rw [hall, List.length_range]

theorem C1_witness : 0 ≤ 2 ∧ 2 ≤ 2 ∧
    (2 = 2 ↔ pairwiseDistinct (fun k => k % 2) 1 2) :=
  C1_n_unique_bounds 2 1 (fun k => k % 2) true true
    (fun _ => 0) (fun _ => 0) (fun _ => 0) 2 _ _ _ rfl

/-- `Int.toNat` is left inverse to `Int.ofNat`. -/
theorem toNat_intOfNat (x : Nat) : (Int.ofNat x).toNat = x := rfl

/-- C2: after a completed call requesting both `index` and `inverse`, for
every `k < n_unique` the slot `inverse[index[k]]` holds `k`. -/
theorem C2_inverse_index_roundtrip (n stride : Nat) (data : Nat → Nat)
    (useCounts : Bool) (i0 v0 c0 : Nat → Int) (nu : Nat)
    (idx inv cnt : Nat → Int)
    (h : unique n stride data true true useCounts i0 v0 c0 =
      some (nu, idx, inv, cnt))
    (k : Nat) (hk : k < nu) :
    inv (idx k).toNat = Int.ofNat k := by
  obtain ⟨hnu, hidx, hinv, -⟩ :=
    unique_some_elim n stride data true useCounts i0 v0 c0 nu idx inv cnt h
  subst hnu
  rw [hidx, stateSpec_index, dif_pos hk, toNat_intOfNat, hinv,
    stateSpec_inverse]
  have hmem := List.get_mem (firsts data stride n) k hk
  have hj := (mem_firsts data stride).1 hmem
  rw [if_pos ⟨rfl, hj.1⟩]
  congr 1
  rw [rankOf_eq_of_first data stride hj.2]
  exact firsts_get_length data stride hk

theorem C2_witness :
    (unique 3 1 (fun k => k % 2) true true true (fun _ => 0) (fun _ => 0)
      (fun _ => 0)).map (fun r => r.2.2.1 ((r.2.1 1).toNat)) =
      some (Int.ofNat 1) :=
  congrArg some (C2_inverse_index_roundtrip 3 1 (fun k => k % 2) true
    (fun _ => 0) (fun _ => 0) (fun _ => 0) 2 _ _ _ rfl 1 (by omega))

/-- C3: after a completed call requesting both `index` and `inverse`,
every position's record is byte-identical to the record at
`index[inverse[i]]`. -/
theorem C3_record_roundtrip (n stride : Nat) (data : Nat → Nat)
    (useCounts : Bool) (i0 v0 c0 : Nat → Int) (nu : Nat)
    (idx inv cnt : Nat → Int)
    (h : unique n stride data true true useCounts i0 v0 c0 =
      some (nu, idx, inv, cnt))
    (i : Nat) (hi : i < n) :
    record data stride ((idx ((inv i).toNat)).toNat) = record data stride i := by
  obtain ⟨-, hidx, hinv, -⟩ :=
    unique_some_elim n stride data true useCounts i0 v0 c0 nu idx inv cnt h
  rw [hinv, stateSpec_inverse, if_pos ⟨rfl, hi⟩, toNat_intOfNat, hidx,
    stateSpec_index]
  have hb : rankOf data stride i < (firsts data stride n).length :=
    rankOf_lt data stride hi
  rw [dif_pos hb, toNat_intOfNat]
  have hfo : firstOcc data stride i < n :=
    Nat.lt_of_le_of_lt (firstOcc_le data stride i) hi
  have hg := firsts_get_at data stride (firstOcc_isFirst data stride i) hfo hb
  rw [show (firsts data stride n).get ⟨rankOf data stride i, hb⟩ =
    firstOcc data stride i from hg]
  exact record_firstOcc data stride i

theorem C3_witness :
    (unique 3 1 (fun k => k % 2) true true true (fun _ => 0) (fun _ => 0)
      (fun _ => 0)).map
        (fun r => record (fun k => k % 2) 1 ((r.2.1 ((r.2.2.1 2).toNat)).toNat)) =
      some (record (fun k => k % 2) 1 2) :=
  congrArg some (C3_record_roundtrip 3 1 (fun k => k % 2) true
    (fun _ => 0) (fun _ => 0) (fun _ => 0) 2 _ _ _ rfl 2 (by omega))

/-- Counting with a Boolean predicate over `List.range` agrees with the
`Finset.range` filter cardinality. -/
theorem length_filter_range_eq_card (p : Nat → Bool) (n : Nat) :
    ((List.range n).filter p).length =
      ((Finset.range n).filter (fun i => p i = true)).card := by
  induction n with
  | zero => rfl
  | succ n ih =>
      rw [List.range_succ, List.filter_append, List.length_append,
        Finset.range_succ, Finset.filter_insert]
      by_cases h : p n = true
      · rw [if_pos h, Finset.card_insert_of_not_mem (by simp), ih]
        simp [h]
      · rw [if_neg h, ih]
        simp [h]

/-- The final count stored for the `k`-th discovered group equals the size
of the fiber of positions whose discovery rank is `k`. -/
theorem countUpTo_eq_card_rank_fiber (data : Nat → Nat) (stride : Nat)
    {n k : Nat} (hk : k < (firsts data stride n).length) :
    countUpTo data stride n ((firsts data stride n).get ⟨k, hk⟩) =
      ((Finset.range n).filter (fun i => rankOf data stride i = k)).card := by
  have hmem := List.get_mem (firsts data stride n) k hk
  obtain ⟨hjn, hjf⟩ := (mem_firsts data stride).1 hmem
  have hlen := firsts_get_length data stride hk
  unfold countUpTo
  rw [length_filter_range_eq_card]
  congr 1
  apply Finset.filter_congr
  intro i hi
  simp only [beq_iff_eq]
  constructor
  · intro hr
    have hfo : firstOcc data stride i = (firsts data stride n).get ⟨k, hk⟩ :=
      (firstOcc_eq_of_first data stride hjf hr.symm).symm
    unfold rankOf
    rw [hfo]
    exact hlen
  · intro hr
    have h1 : firstOcc data stride i = (firsts data stride n).get ⟨k, hk⟩ := by
      apply first_eq_of_firsts_length_eq data stride
        (firstOcc_isFirst data stride i) hjf
      rw [hlen]
      exact hr
    calc record data stride i
        = record data stride (firstOcc data stride i) :=
          (record_firstOcc data stride i).symm
      _ = record data stride ((firsts data stride n).get ⟨k, hk⟩) := by rw [h1]

/-- C4: after a completed call requesting all three buffers, the count
stored at `counts[index[k]]` is the number of positions whose `inverse`
value is `k`, and those counts sum to `n` over the valid slots. -/
theorem C4_counts_fibers (n stride : Nat) (data : Nat → Nat)
    (i0 v0 c0 : Nat → Int) (nu : Nat) (idx inv cnt : Nat → Int)
    (h : unique n stride data true true true i0 v0 c0 =
      some (nu, idx, inv, cnt))
    (k : Nat) (hk : k < nu) :
    cnt ((idx k).toNat) =
      Int.ofNat (((Finset.range n).filter
        (fun i => inv i = Int.ofNat k)).card) ∧
    (∑ m ∈ Finset.range nu, cnt ((idx m).toNat)) = Int.ofNat n := by
  obtain ⟨hnu, hidx, hinv, hcnt⟩ :=
    unique_some_elim n stride data true true i0 v0 c0 nu idx inv cnt h
  subst hnu
  have hslot : ∀ m, m < (firsts data stride n).length →
      cnt ((idx m).toNat) =
        Int.ofNat (((Finset.range n).filter
          (fun i => rankOf data stride i = m)).card) := by
    intro m hm
    rw [hidx, stateSpec_index, dif_pos hm, toNat_intOfNat, hcnt,
      stateSpec_counts]
    have hmem := List.get_mem (firsts data stride n) m hm
    obtain ⟨hjn, hjf⟩ := (mem_firsts data stride).1 hmem
    rw [if_pos ⟨rfl, hjn, hjf⟩]
    exact congrArg Int.ofNat (countUpTo_eq_card_rank_fiber data stride hm)
  have hfib : ∀ m : Nat,
      ((Finset.range n).filter (fun i => inv i = Int.ofNat m)) =
        ((Finset.range n).filter (fun i => rankOf data stride i = m)) := by
    intro m
    apply Finset.filter_congr
    intro i hi
    rw [hinv, stateSpec_inverse, if_pos ⟨rfl, Finset.mem_range.1 hi⟩]
    exact Int.ofNat_inj
  constructor
  · rw [hfib k]
    exact hslot k hk
  · rw [Finset.sum_congr rfl (fun m hm => hslot m (Finset.mem_range.1 hm))]
    have hmem2 : ∀ i ∈ Finset.range n, rankOf data stride i ∈
        Finset.range (firsts data stride n).length :=
      fun i hi => Finset.mem_range.2 (rankOf_lt data stride (Finset.mem_range.1 hi))
    have hcard : n = ∑ m ∈ Finset.range (firsts data stride n).length,
        ((Finset.range n).filter (fun i => rankOf data stride i = m)).card := by
      have h2 := Finset.card_eq_sum_card_fiberwise hmem2
      rwa [Finset.card_range] at h2
    simp only [Int.ofNat_eq_natCast]
    rw [← Nat.cast_sum]
    exact congrArg Nat.cast hcard.symm

theorem C4_witness :
    (unique 3 1 (fun k => k % 2) true true true (fun _ => 0) (fun _ => 0)
      (fun _ => 0)).map
      (fun r => decide (r.2.2.2 ((r.2.1 0).toNat) =
          Int.ofNat (((Finset.range 3).filter
            (fun i => r.2.2.1 i = Int.ofNat 0)).card) ∧
        (∑ m ∈ Finset.range r.1, r.2.2.2 ((r.2.1 m).toNat)) = Int.ofNat 3)) =
      some true :=
  congrArg some (decide_eq_true (C4_counts_fibers 3 1 (fun k => k % 2)
    (fun _ => 0) (fun _ => 0) (fun _ => 0) 2 _ _ _ rfl 0 (by omega)))

/-- C8: a completed call requesting `counts` writes only the slots of
`counts` at group first-occurrence positions; every other slot keeps the
value it held before the call. -/
theorem C8_counts_frame (n stride : Nat) (data : Nat → Nat)
    (useInverse : Bool) (i0 v0 c0 : Nat → Int) (nu : Nat)
    (idx inv cnt : Nat → Int)
    (h : unique n stride data true useInverse true i0 v0 c0 =
      some (nu, idx, inv, cnt))
    (j : Nat) (hj : ¬ (j < n ∧ isFirstB data stride j = true)) :
    cnt j = c0 j := by
  obtain ⟨-, -, -, hcnt⟩ :=
    unique_some_elim n stride data useInverse true i0 v0 c0 nu idx inv cnt h
  rw [hcnt, stateSpec_counts, if_neg (fun hc => hj ⟨hc.2.1, hc.2.2⟩)]

theorem C8_witness :
    (unique 3 1 (fun k => k % 2) true true true (fun _ => 7) (fun _ => 7)
      (fun _ => 7)).map (fun r => r.2.2.2 2) = some 7 :=
  congrArg some (C8_counts_frame 3 1 (fun k => k % 2) true
    (fun _ => 7) (fun _ => 7) (fun _ => 7) 2 _ _ _ rfl 2 (by decide))

/-- C10: during a completed scan with `stride > 0` and `inverse`
requested, any successful hashmap lookup at position `i` recovers a
first-occurrence position strictly below `i` whose `inverse` slot holds
that group's rank; consequently every written `inverse` value is at most
its position and the positions written into `index` are strictly
increasing. -/
theorem C10_scan_invariants (n stride : Nat) (data : Nat → Nat)
    (useCounts : Bool) (i0 v0 c0 : Nat → Int) (nu : Nat)
    (idx inv cnt : Nat → Int) (hst : 0 < stride)
    (h : unique n stride data true true useCounts i0 v0 c0 =
      some (nu, idx, inv, cnt)) :
    (∀ i off, i < n →
      hashmap_get data stride
        ((firsts data stride i).map (fun j => stride * j))
        (record data stride i) = some off →
      off / stride < i ∧ inv (off / stride) = Int.ofNat (rankOf data stride i)) ∧
    (∀ i, i < n → 0 ≤ inv i ∧ (inv i).toNat ≤ i) ∧
    (∀ k l, k < l → l < nu → idx k < idx l) := by
  obtain ⟨hnu, hidx, hinv, -⟩ :=
    unique_some_elim n stride data true useCounts i0 v0 c0 nu idx inv cnt h
  refine ⟨?_, ?_, ?_⟩
  · intro i off hi hget
    by_cases hf : isFirstB data stride i = true
    · rw [hashmap_get_none data stride hf] at hget
      cases hget
    · have hff : isFirstB data stride i = false := by simpa using hf
      rw [hashmap_get_found data stride hff] at hget
      have hoff : off = stride * firstOcc data stride i := by
        injection hget with hget2
        exact hget2.symm
      subst hoff
      rw [Nat.mul_div_cancel_left _ hst]
      have hfo := firstOcc_lt_of_not_first data stride hff
      refine ⟨hfo, ?_⟩
      rw [hinv, stateSpec_inverse,
        if_pos ⟨rfl, Nat.lt_trans hfo hi⟩, rankOf_firstOcc]
  · intro i hi
    rw [hinv, stateSpec_inverse, if_pos ⟨rfl, hi⟩]
    exact ⟨Int.ofNat_zero_le _, by rw [toNat_intOfNat]; exact rankOf_le data stride i⟩
  · intro k l hkl hl
    subst hnu
    have hk : k < (firsts data stride n).length := Nat.lt_trans hkl hl
    rw [hidx, stateSpec_index, stateSpec_index, dif_pos hk, dif_pos hl]
    have hp := List.pairwise_iff_get.1 (firsts_sorted data stride n)
      ⟨k, hk⟩ ⟨l, hl⟩ hkl
    exact Int.ofNat_lt.2 hp

theorem C10_witness :
    (unique 3 1 (fun k => k % 2) true true true (fun _ => 0) (fun _ => 0)
      (fun _ => 0)).map
      (fun r => decide ((r.2.2.1 2).toNat ≤ 2 ∧ r.2.1 0 < r.2.1 1)) =
      some true := by
  have h := C10_scan_invariants 3 1 (fun k => k % 2) true (fun _ => 0)
    (fun _ => 0) (fun _ => 0) 2 _ _ _ (by omega) rfl
  exact congrArg some (decide_eq_true
    ⟨(h.2.1 2 (by omega)).2, h.2.2 0 1 (by omega) (by omega)⟩)

/-- C5 (amended): with the index buffer present, dropping `inverse` and/or
`counts` changes neither the returned `n_unique`, the index contents, nor
the values written to whichever other buffer is still requested; with the
index buffer absent the call instead returns `0` at once and writes
nothing. -/
theorem C5_subset_flags (n stride : Nat) (data : Nat → Nat)
    (useInverse useCounts : Bool) (i0 v0 c0 : Nat → Int) :
    unique n stride data false useInverse useCounts i0 v0 c0 =
      some (0, i0, v0, c0) ∧
    ((unique n stride data true useInverse useCounts i0 v0 c0).map
        (fun r => r.1) =
      (unique n stride data true true true i0 v0 c0).map (fun r => r.1)) ∧
    ((unique n stride data true useInverse useCounts i0 v0 c0).map
        (fun r => r.2.1) =
      (unique n stride data true true true i0 v0 c0).map (fun r => r.2.1)) ∧
    (useInverse = true →
      (unique n stride data true useInverse useCounts i0 v0 c0).map
          (fun r => r.2.2.1) =
        (unique n stride data true true true i0 v0 c0).map
          (fun r => r.2.2.1)) ∧
    (useCounts = true →
      (unique n stride data true useInverse useCounts i0 v0 c0).map
          (fun r => r.2.2.2) =
        (unique n stride data true true true i0 v0 c0).map
          (fun r => r.2.2.2)) := by
  by_cases hsn : 0 < stride ∨ n ≤ 1
  · rw [unique_eq_spec n stride data useInverse useCounts i0 v0 c0 hsn,
      unique_eq_spec n stride data true true i0 v0 c0 hsn]
    refine ⟨rfl, rfl, rfl, ?_, ?_⟩
    · intro hu
      subst hu
      rfl
    · intro hc
      subst hc
      rfl
  · have hs0 : stride = 0 := by omega
    have hn2 : 2 ≤ n := by omega
    subst hs0
    have hnone : ∀ u c : Bool, unique n 0 data true u c i0 v0 c0 = none := by
      intro u c
      rw [unique, if_neg (by simp),
        uniqueScan_zero_stride u c data i0 v0 c0 n hn2]
    rw [hnone useInverse useCounts, hnone true true]
    exact ⟨rfl, rfl, rfl, fun _ => rfl, fun _ => rfl⟩

theorem C5_witness :
    unique 3 1 (fun k => k % 2) false true false (fun _ => 0) (fun _ => 0)
      (fun _ => 0) = some (0, fun _ => 0, fun _ => 0, fun _ => 0) ∧
    ((unique 3 1 (fun k => k % 2) true true false (fun _ => 0) (fun _ => 0)
        (fun _ => 0)).map (fun r => r.1) =
      (unique 3 1 (fun k => k % 2) true true true (fun _ => 0) (fun _ => 0)
        (fun _ => 0)).map (fun r => r.1)) ∧
    ((unique 3 1 (fun k => k % 2) true true false (fun _ => 0) (fun _ => 0)
        (fun _ => 0)).map (fun r => r.2.1) =
      (unique 3 1 (fun k => k % 2) true true true (fun _ => 0) (fun _ => 0)
        (fun _ => 0)).map (fun r => r.2.1)) ∧
    (true = true →
      (unique 3 1 (fun k => k % 2) true true false (fun _ => 0) (fun _ => 0)
          (fun _ => 0)).map (fun r => r.2.2.1) =
        (unique 3 1 (fun k => k % 2) true true true (fun _ => 0) (fun _ => 0)
          (fun _ => 0)).map (fun r => r.2.2.1)) ∧
    (false = true →
      (unique 3 1 (fun k => k % 2) true true false (fun _ => 0) (fun _ => 0)
          (fun _ => 0)).map (fun r => r.2.2.2) =
        (unique 3 1 (fun k => k % 2) true true true (fun _ => 0) (fun _ => 0)
          (fun _ => 0)).map (fun r => r.2.2.2)) :=
  C5_subset_flags 3 1 (fun k => k % 2) true false (fun _ => 0) (fun _ => 0)
    (fun _ => 0)

/-- C5 counterexample: when the index buffer is absent the plain-C variant
returns `0` immediately, so for a single distinct record the returned
`n_unique` differs from the all-buffers-present call (`0` versus `1`), and
the requested `inverse` buffer is left unwritten. -/
theorem C5_counterexample :
    (unique 1 1 (fun _ => 0) false true true (fun _ => 9) (fun _ => 9)
      (fun _ => 9)).map (fun r => r.1) = some 0 ∧
    (unique 1 1 (fun _ => 0) true true true (fun _ => 9) (fun _ => 9)
      (fun _ => 9)).map (fun r => r.1) = some 1 ∧
    (unique 1 1 (fun _ => 0) false true true (fun _ => 9) (fun _ => 9)
      (fun _ => 9)).map (fun r => r.2.2.1 0) = some 9 ∧
    (unique 1 1 (fun _ => 0) true true true (fun _ => 9) (fun _ => 9)
      (fun _ => 9)).map (fun r => r.2.2.1 0) = some 0 :=
  ⟨rfl, rfl, rfl, rfl⟩

/-- C6 (amended): with `stride = 0` and `n = 1` the call is well-defined
and returns `n_unique = 1` (the lone record forms one group, no lookup
ever succeeds); but for every `n ≥ 2` the second iteration's successful
lookup reaches the division by zero in the `found_index` computation, so
the call is undefined. -/
theorem C6_zero_stride (n : Nat) (data : Nat → Nat)
    (useInverse useCounts : Bool) (i0 v0 c0 : Nat → Int) :
    ((unique 1 0 data true useInverse useCounts i0 v0 c0).map
      (fun r => r.1) = some 1) ∧
    (2 ≤ n → unique n 0 data true useInverse useCounts i0 v0 c0 = none) := by
  constructor
  · rw [unique_eq_spec 1 0 data useInverse useCounts i0 v0 c0 (Or.inr le_rfl)]
    have h1 : firsts data 0 1 = [0] := by
      unfold firsts
      simp [List.range_succ, List.range_zero, isFirstB_zero data 0]
    show some (firsts data 0 1).length = some 1
    rw [h1]
    rfl
  · intro h2
    rw [unique, if_neg (by simp),
      uniqueScan_zero_stride useInverse useCounts data i0 v0 c0 n h2]

/-- C6 counterexample: at `n = 2`, `stride = 0` the call does not complete
normally: the division by zero is reached, so there is no returned
`n_unique` at all (in particular it does not return `1`). -/
theorem C6_counterexample :
    unique 2 0 (fun _ => 0) true true true (fun _ => 0) (fun _ => 0)
      (fun _ => 0) = none :=
  rfl

theorem C6_witness :
    ((unique 1 0 (fun _ => 0) true true true (fun _ => 0) (fun _ => 0)
      (fun _ => 0)).map (fun r => r.1) = some 1) ∧
    unique 2 0 (fun _ => 0) true true true (fun _ => 0) (fun _ => 0)
      (fun _ => 0) = none :=
  ⟨(C6_zero_stride 2 (fun _ => 0) true true (fun _ => 0) (fun _ => 0)
      (fun _ => 0)).1,
    (C6_zero_stride 2 (fun _ => 0) true true (fun _ => 0) (fun _ => 0)
      (fun _ => 0)).2 (by omega)⟩

/-- C9: the Python-binding variant and the plain-C variant of `unique`
agree on every input whenever the index buffer is present: same returned
`n_unique` (or the same undefined behaviour) and identical `index`,
`inverse` and `counts` contents. -/
theorem C9_variants_agree (n stride : Nat) (data : Nat → Nat)
    (useInverse useCounts : Bool) (i0 v0 c0 : Nat → Int) :
    unique_c n stride data useInverse useCounts i0 v0 c0 =
      unique n stride data true useInverse useCounts i0 v0 c0 := by
  have hstep : uniqueStep_c = uniqueStep := rfl
  have hscan : ∀ i s, uniqueScan_c useInverse useCounts data stride s i =
      uniqueScan useInverse useCounts data stride s i := by
    intro i
    induction i with
    | zero => intro s; rfl
    | succ i ih =>
        intro s
        rw [uniqueScan_c, uniqueScan, ih, hstep]
  rw [unique, if_neg (by simp), unique_c, hscan]

/-- Scan state of `unique` with the `index` output modelled as a finite C
array (capacity = list length), for examining what happens when the
caller-supplied buffer is smaller than `n`: a C array write past the end
is undefined behaviour. -/
structure BState where
  map : List Nat
  n_unique : Nat
  index : List Int

/-- One iteration of the scan loop of `unique` (`inverse` and `counts`
`NULL`) against a capacity-bounded `index` buffer.  The code performs no
bounds check: `index[n_unique] = i` past the buffer's end is an
out-of-bounds write, modelled as `none`; no other behaviour differs from
`uniqueStep`. -/
def uniqueStepB (data : Nat → Nat) (stride : Nat) (s : BState)
    (i : Nat) : Option BState :=
  match hashmap_get data stride s.map (record data stride i) with
  | some _ =>
      if stride = 0 then none
      else some s
  | none =>
      if s.n_unique < s.index.length then
        some {
          map := s.map ++ [stride * i],
          n_unique := s.n_unique + 1,
          index := s.index.set s.n_unique (Int.ofNat i) }
      else none

/-- The bounded-buffer scan after processing positions `0, …, i-1`. -/
def uniqueScanB (data : Nat → Nat) (stride : Nat) (s : BState) :
    Nat → Option BState
  | 0 => some s
  | i + 1 =>
      (uniqueScanB data stride s i).bind
        (fun s1 => uniqueStepB data stride s1 i)

/-- C7 counterexample: `unique` performs no precondition validation, so an
`index` buffer of capacity `1` with `n = 2` distinct records is not
rejected up front: the first iteration overwrites `index[0]` and only the
second iteration hits the out-of-bounds write — the call fails mid-scan
with the buffer already modified, neither fully valid nor untouched. -/
theorem C7_counterexample :
    uniqueScanB (fun k => k) 1 { map := [], n_unique := 0, index := [99] } 1 =
      some { map := [0], n_unique := 1, index := [0] } ∧
    uniqueScanB (fun k => k) 1 { map := [], n_unique := 0, index := [99] } 2 =
      none :=
  ⟨rfl, rfl⟩

/-- C7 (amended): the only precondition `unique` rejects before the scan is
a `NULL` index buffer, in which case it returns `0` with every output
untouched; no other precondition (such as an undersized buffer) is
checked, and an undersized `index` buffer leads to an out-of-bounds write
mid-scan after earlier slots were already written. -/
theorem C7_null_index_fail_fast (n stride : Nat) (data : Nat → Nat)
    (useInverse useCounts : Bool) (i0 v0 c0 : Nat → Int) :
    unique n stride data false useInverse useCounts i0 v0 c0 =
      some (0, i0, v0, c0) :=
  rfl

/-- C1 counterexample: a call with the index buffer absent returns `0`
without scanning, so with `n = 1` — where all records are trivially
pairwise distinct — the returned `n_unique` is `0 ≠ n`, refuting the
claim when quantified over arbitrary calls. -/
theorem C1_counterexample :
    (unique 1 1 (fun _ => 0) false true true (fun _ => 0) (fun _ => 0)
      (fun _ => 0)).map (fun r => r.1) = some 0 ∧
    pairwiseDistinct (fun _ => 0) 1 1 ∧ (0 : Nat) ≠ 1 := by
  refine ⟨rfl, ?_, by omega⟩
  intro i j hij hj
  exact absurd hij (by omega)
